import Mathlib

/-!
Shallow embedding of the video segment cache of the vodlibrary server
(cache module: getCachedSegment, cacheSegment, cacheSegmentFromFile,
cleanupCache, countCachedSegmentsForVideo, incrementVideoAccess,
resetCacheStats, clearCache) and of the two range-serving HTTP handlers
(the stream endpoint of server.js and the segments endpoint of
routes/api.js), together with proofs of the behavioural claims.

Byte buffers are modelled as lists of naturals; video identifiers and
segment numbers as naturals (the cache key string has the fixed shape
video_<id>_segment_<n>, which for numeric identifiers is in bijection
with the pair of numbers, and the eviction scan's regular expression
recovers exactly the identifier component).  The JavaScript number used
for the running size statistic is modelled as an integer.  The key/value
store backing the cache is modelled as an insertion-ordered association
list with pairwise distinct keys; set overwrites in place, delete
removes the key.
-/

namespace VodCache

/-- Runtime cache configuration (the fields the claims depend on). -/
structure Config where
  maxCacheSize : Nat
  enableStats : Bool
  popularityThreshold : Nat
  maxSegmentsPerVideo : Nat
deriving Repr, DecidableEq

/-- A cache key video_<id>_segment_<n>, as its two numeric components. -/
structure CacheKey where
  videoId : Nat
  segmentNumber : Nat
deriving Repr, DecidableEq

/-- A byte buffer. -/
abbrev Buffer := List Nat

/-- The whole mutable module state: the node-cache store (insertion
ordered) plus the cacheStats record (hits, misses, size, videoAccess). -/
structure CacheState where
  entries : List (CacheKey × Buffer)
  hits : Nat
  misses : Nat
  size : Int
  videoAccess : Nat → Nat

/-- The state at module load: empty store, zeroed statistics. -/
def initialState : CacheState :=
  { entries := [], hits := 0, misses := 0, size := 0, videoAccess := fun _ => 0 }

/-- videoCache.get: first (and, keys being distinct, only) binding. -/
def lookupEntry (l : List (CacheKey × Buffer)) (k : CacheKey) : Option Buffer :=
  (l.find? (fun e => e.1 = k)).map (fun e => e.2)

/-- videoCache.has. -/
def containsKey (l : List (CacheKey × Buffer)) (k : CacheKey) : Bool :=
  (lookupEntry l k).isSome

/-- videoCache.set: overwrite in place when the key exists, else append. -/
def setEntry (l : List (CacheKey × Buffer)) (k : CacheKey) (d : Buffer) :
    List (CacheKey × Buffer) :=
  if containsKey l k then
    l.map (fun e => if e.1 = k then (k, d) else e)
  else
    l ++ [(k, d)]

/-- The deletion half of videoCache.take. -/
def removeEntry (l : List (CacheKey × Buffer)) (k : CacheKey) :
    List (CacheKey × Buffer) :=
  l.filter (fun e => decide (e.1 ≠ k))

/-- Sum of bytes.length over the resident entries. -/
def entriesSize (l : List (CacheKey × Buffer)) : Nat :=
  (l.map (fun e => e.2.length)).sum

/-- incrementVideoAccess: bump the per-video access counter. -/
def incrementVideoAccess (f : Nat → Nat) (videoId : Nat) : Nat → Nat :=
  fun w => if w = videoId then f videoId + 1 else f w

/-- getCachedSegment: on a hit return the bytes and (when statistics are
enabled) record the hit and the video access; on a miss return nothing
and (when statistics are enabled) count the miss. -/
def getCachedSegment (cfg : Config) (st : CacheState)
    (videoId segmentNumber : Nat) : Option Buffer × CacheState :=
  match lookupEntry st.entries ⟨videoId, segmentNumber⟩ with
  | some data =>
      (some data,
        if cfg.enableStats then
          { st with hits := st.hits + 1,
                    videoAccess := incrementVideoAccess st.videoAccess videoId }
        else st)
  | none =>
      (none, if cfg.enableStats then { st with misses := st.misses + 1 } else st)

/-- One record of the eviction scan: key, byte size, and the owning
video's access count as recovered through the key's regular expression. -/
structure EvEntry where
  key : CacheKey
  size : Nat
  accessCount : Nat
deriving Repr, DecidableEq

/-- The eviction scan over all live keys, in store (insertion) order. -/
def buildEvictionEntries (st : CacheState) : List EvEntry :=
  st.entries.map (fun e =>
    { key := e.1, size := e.2.length, accessCount := st.videoAccess e.1.videoId })

/-- Stable insertion of an entry into a list already sorted by ascending
access count: the entry lands before the first strictly less popular
later element, matching the stable JavaScript sort. -/
def insertEv (x : EvEntry) : List EvEntry → List EvEntry
  | [] => [x]
  | y :: ys =>
      if y.accessCount < x.accessCount then y :: insertEv x ys
      else x :: y :: ys

/-- Stable sort of the eviction scan by ascending access count. -/
def evSort : List EvEntry → List EvEntry
  | [] => []
  | x :: xs => insertEv x (evSort xs)

/-- The eviction loop: walk the sorted entries, stop once the freed
total reaches the required space, otherwise take (look up and delete)
the entry, tallying freed bytes and decrementing the size statistic. -/
def runEviction (r : Nat) :
    List EvEntry → List (CacheKey × Buffer) → Nat → Int →
      List (CacheKey × Buffer) × Nat × Int
  | [], store, freed, sz => (store, freed, sz)
  | e :: rest, store, freed, sz =>
      if r ≤ freed then (store, freed, sz)
      else
        match lookupEntry store e.key with
        | some _ =>
            runEviction r rest (removeEntry store e.key)
              (freed + e.size) (sz - (e.size : Int))
        | none => runEviction r rest store freed sz

/-- cleanupCache: nothing to do on an empty store; otherwise scan, sort
ascending by access count, and run the eviction loop. -/
def cleanupCache (st : CacheState) (requiredSpace : Nat) : CacheState :=
  if st.entries.isEmpty then st
  else
    let sorted := evSort (buildEvictionEntries st)
    let res := runEviction requiredSpace sorted st.entries 0 st.size
    { st with entries := res.1, size := res.2.2 }

/-- cacheSegment: clean up first when the projected size statistic would
exceed the budget, then store unconditionally and grow the statistic. -/
def cacheSegment (cfg : Config) (st : CacheState)
    (videoId segmentNumber : Nat) (data : Buffer) : Bool × CacheState :=
  let st1 :=
    if (cfg.maxCacheSize : Int) < st.size + (data.length : Int) then
      cleanupCache st data.length
    else st
  (true,
    { st1 with
        entries := setEntry st1.entries ⟨videoId, segmentNumber⟩ data,
        size := st1.size + (data.length : Int) })

/-- countCachedSegmentsForVideo: how many live keys belong to the video. -/
def countCachedSegmentsForVideo (l : List (CacheKey × Buffer)) (videoId : Nat) : Nat :=
  (l.filter (fun e => decide (e.1.videoId = videoId))).length

/-- readFileSegment: the inclusive byte range start..endByte of the
file, truncated at end of file. -/
def readFileSegment (file : List Nat) (start endByte : Nat) : Buffer :=
  (file.take (endByte + 1)).drop start

/-- cacheSegmentFromFile: short-circuit on a resident key; refuse when
statistics are enabled and the video's access count is zero or below the
popularity threshold; refuse when the video is at its segment cap; else
read the range and delegate to cacheSegment.  The third component
counts the file reads the call performed. -/
def cacheSegmentFromFile (cfg : Config) (st : CacheState)
    (videoId segmentNumber : Nat) (file : List Nat) (start endByte : Nat) :
    Bool × CacheState × Nat :=
  if containsKey st.entries ⟨videoId, segmentNumber⟩ then (true, st, 0)
  else if cfg.enableStats &&
      (st.videoAccess videoId == 0 ||
        decide (st.videoAccess videoId < cfg.popularityThreshold)) then
    (false, st, 0)
  else if decide (cfg.maxSegmentsPerVideo ≤ countCachedSegmentsForVideo st.entries videoId) then
    (false, st, 0)
  else
    let data := readFileSegment file start endByte
    let res := cacheSegment cfg st videoId segmentNumber data
    (res.1, res.2, 1)

/-- resetCacheStats: zero hits and misses; size and videoAccess are
deliberately left alone. -/
def resetCacheStats (st : CacheState) : CacheState :=
  { st with hits := 0, misses := 0 }

/-- clearCache: flush the store and zero the size statistic. -/
def clearCache (st : CacheState) : CacheState :=
  { st with entries := [], size := 0 }

/-- One public cache operation. -/
inductive CacheOp where
  | get (videoId segmentNumber : Nat)
  | seg (videoId segmentNumber : Nat) (data : Buffer)
  | segFromFile (videoId segmentNumber : Nat) (file : List Nat) (start endByte : Nat)
  | resetStats
  | clear
deriving Repr

/-- Apply one operation to the state. -/
def applyOp (cfg : Config) (st : CacheState) : CacheOp → CacheState
  | CacheOp.get v s => (getCachedSegment cfg st v s).2
  | CacheOp.seg v s data => (cacheSegment cfg st v s data).2
  | CacheOp.segFromFile v s file a b => (cacheSegmentFromFile cfg st v s file a b).2.1
  | CacheOp.resetStats => resetCacheStats st
  | CacheOp.clear => clearCache st

/-- Run a sequence of operations from a state. -/
def runOps (cfg : Config) (ops : List CacheOp) (st : CacheState) : CacheState :=
  ops.foldl (applyOp cfg) st

/-- Number of bytes an operation would insert into the store. -/
def opDataLength : CacheOp → Nat
  | CacheOp.get _ _ => 0
  | CacheOp.seg _ _ data => data.length
  | CacheOp.segFromFile _ _ file a b => (readFileSegment file a b).length
  | CacheOp.resetStats => 0
  | CacheOp.clear => 0

/-- Whether the operation is a raw cacheSegment call. -/
def isRawCacheSegment : CacheOp → Bool
  | CacheOp.seg _ _ _ => true
  | _ => false

/-- Whether the operation is a getCachedSegment or cacheSegmentFromFile. -/
def isGetOrFromFile : CacheOp → Bool
  | CacheOp.get _ _ => true
  | CacheOp.segFromFile _ _ _ _ _ => true
  | _ => false

/-- Pairwise distinct keys: the association list represents a map. -/
def DistinctKeys (l : List (CacheKey × Buffer)) : Prop :=
  l.Pairwise (fun a b => a.1 ≠ b.1)

/-- Derived description of the eviction loop: the entries it will
remove, namely the walk of the sorted scan that stops as soon as the
freed total reaches the required space. -/
def evictPlan (r : Nat) : List EvEntry → Nat → List EvEntry
  | [], _ => []
  | e :: rest, freed =>
      if r ≤ freed then [] else e :: evictPlan r rest (freed + e.size)

/-- Drop every entry whose key occurs in the list. -/
def removeKeys (ks : List CacheKey) (l : List (CacheKey × Buffer)) :
    List (CacheKey × Buffer) :=
  l.filter (fun e => decide (¬ e.1 ∈ ks))

/-- The order in which cleanupCache considers entries for removal. -/
def evictionOrder (st : CacheState) : List EvEntry :=
  evSort (buildEvictionEntries st)

/-- The entries a cleanupCache call removes. -/
def evictionPlan (st : CacheState) (r : Nat) : List EvEntry :=
  evictPlan r (evictionOrder st) 0

/-- The keys a cleanupCache call removes. -/
def planKeys (st : CacheState) (r : Nat) : List CacheKey :=
  (evictionPlan st r).map (fun e => e.key)

/-- The bytes a cleanupCache call frees. -/
def planBytes (st : CacheState) (r : Nat) : Nat :=
  ((evictionPlan st r).map (fun e => e.size)).sum

/-- Total byte size of a list of eviction-scan records. -/
def evSizes (l : List EvEntry) : Nat :=
  (l.map (fun e => e.size)).sum

/-- The well-formedness the reachable states enjoy: the store is a map
and the size statistic dominates the true resident byte total. -/
def WellFormed (st : CacheState) : Prop :=
  DistinctKeys st.entries ∧ (entriesSize st.entries : Int) ≤ st.size

/-- The configuration of the popularity-disabled scenario of the spec:
10MiB budget, threshold 0, two segments per video. -/
def scenarioConfig : Config := ⟨10 * 1024 * 1024, true, 0, 2⟩

/-- A small concrete source file. -/
def demoFile : List Nat := [1, 2, 3, 4, 5, 6, 7, 8]

/-- First admission of the scenario: segment 0 of video 42, fresh state. -/
def scenarioRun1 : Bool × CacheState × Nat :=
  cacheSegmentFromFile scenarioConfig initialState 42 0 demoFile 0 1

/-- Second admission of the scenario: segment 1. -/
def scenarioRun2 : Bool × CacheState × Nat :=
  cacheSegmentFromFile scenarioConfig scenarioRun1.2.1 42 1 demoFile 2 3

/-- Third admission of the scenario: segment 2. -/
def scenarioRun3 : Bool × CacheState × Nat :=
  cacheSegmentFromFile scenarioConfig scenarioRun2.2.1 42 2 demoFile 4 5

/-- A 4-byte budget, used to exhibit an oversized admission. -/
def overCfg : Config := ⟨4, true, 0, 3⟩

/-- A one-segment-per-video cap with a generous byte budget. -/
def capCfg : Config := ⟨100, true, 0, 1⟩

/-- A 10-byte budget for the headroom experiment. -/
def headroomConfig : Config := ⟨10, true, 0, 3⟩

/-- A full store: five videos with one two-byte entry each. -/
def headroomState : CacheState :=
  { entries := [(⟨1, 0⟩, [0, 0]), (⟨2, 0⟩, [0, 0]), (⟨3, 0⟩, [0, 0]),
                (⟨4, 0⟩, [0, 0]), (⟨5, 0⟩, [0, 0])],
    hits := 0, misses := 0, size := 10, videoAccess := fun _ => 0 }

/-- Two equal-size entries: video 1 has 50 recorded accesses and is the
older entry, video 2 has 1. -/
def twoEntryState : CacheState :=
  { entries := [(⟨1, 0⟩, [9, 9]), (⟨2, 0⟩, [8, 8])],
    hits := 0, misses := 0, size := 4,
    videoAccess := fun v => if v = 1 then 50 else if v = 2 then 1 else 0 }

/-- A state holding one entry for video 3, segment 1. -/
def demoResident : CacheState :=
  { entries := [(⟨3, 1⟩, [5])], hits := 0, misses := 0, size := 1,
    videoAccess := fun v => if v = 7 then 9 else 0 }

/-- Statistics disabled. -/
def statsOffConfig : Config := ⟨100, false, 5, 3⟩

/-- Statistics enabled, threshold 5. -/
def statsOnConfig : Config := ⟨100, true, 5, 3⟩

/-- A state with nonzero hit, miss and per-video access counters. -/
def countersState : CacheState :=
  { entries := [], hits := 2, misses := 1, size := 0,
    videoAccess := fun w => if w = 1 then 3 else 0 }

end VodCache

namespace VodRoutes

/-- The quality query parameter of the segments endpoint. -/
inductive Quality where
  | low
  | medium
  | high
deriving Repr, DecidableEq

/-- Segment size per quality: 512KB low, 1MB medium, 2MB high. -/
def segmentSize : Quality → Nat
  | Quality.low => 512 * 1024
  | Quality.medium => 1024 * 1024
  | Quality.high => 2 * 1024 * 1024

/-- The segments endpoint of routes/api.js on a found video: 416 when
the requested segment starts at or past the file size, else 206. -/
def segmentsResponseStatus (fileSize segmentNumber : Nat) (q : Quality) : Nat :=
  if fileSize ≤ segmentNumber * segmentSize q then 416 else 206

/-- The response head the stream endpoint of server.js writes for a
found video with a Range header (no CDN): an unconditional 206. -/
structure RangeHead where
  status : Nat
  rangeStart : Nat
  rangeEnd : Int
  contentLength : Int
deriving Repr, DecidableEq

/-- The stream endpoint's range branch: parse start and optional end,
default end to fileSize - 1, and write a 206 head; there is no
range-not-satisfiable check. -/
def streamRangeResponse (fileSize start : Nat) (endPart : Option Nat) : RangeHead :=
  let e : Int :=
    match endPart with
    | some x => (x : Int)
    | none => (fileSize : Int) - 1
  { status := 206, rangeStart := start, rangeEnd := e,
    contentLength := e - (start : Int) + 1 }

end VodRoutes

namespace VodCache

/-- Looking up in the empty store finds nothing. -/
theorem lookupEntry_nil (k : CacheKey) : lookupEntry [] k = none := rfl

/-- Lookup steps through a cons cell. -/
theorem lookupEntry_cons (e : CacheKey × Buffer) (l : List (CacheKey × Buffer))
    (k : CacheKey) :
    lookupEntry (e :: l) k = if e.1 = k then some e.2 else lookupEntry l k := by
  by_cases h : e.1 = k
  · simp [lookupEntry, List.find?, h]
  · simp [lookupEntry, List.find?, h]

/-- A lookup that fails means the key occurs nowhere. -/
theorem lookupEntry_eq_none_iff (l : List (CacheKey × Buffer)) (k : CacheKey) :
    lookupEntry l k = none ↔ ∀ e ∈ l, e.1 ≠ k := by
  induction l with
  | nil => simp [lookupEntry_nil]
  | cons e rest ih =>
      rw [lookupEntry_cons]
      by_cases h : e.1 = k
      · simp [h]
      · simp [h, ih]

/-- In a store with distinct keys, membership determines the lookup. -/
theorem lookupEntry_eq_of_mem {l : List (CacheKey × Buffer)}
    {ed : CacheKey × Buffer} (hd : DistinctKeys l) (hm : ed ∈ l) :
    lookupEntry l ed.1 = some ed.2 := by
  induction l with
  | nil => cases hm
  | cons e rest ih =>
      rcases List.pairwise_cons.mp hd with ⟨hhead, hrest⟩
      rw [lookupEntry_cons]
      rcases List.mem_cons.mp hm with h | h
      · subst h; simp
      · have hne : e.1 ≠ ed.1 := hhead ed h
        simp [hne, ih hrest h]

/-- A successful lookup returns a member of the store. -/
theorem mem_of_lookupEntry_eq_some {l : List (CacheKey × Buffer)}
    {k : CacheKey} {d : Buffer} (h : lookupEntry l k = some d) : (k, d) ∈ l := by
  induction l with
  | nil => simp [lookupEntry_nil] at h
  | cons e rest ih =>
      rw [lookupEntry_cons] at h
      by_cases he : e.1 = k
      · rw [if_pos he] at h
        have : e = (k, d) := by
          cases e with
          | mk k0 d0 =>
              simp at he
              simp at h
              simp [he, h]
        simp [← this]
      · rw [if_neg he] at h
        exact List.mem_cons_of_mem _ (ih h)

/-- Removing a key removes it. -/
theorem lookupEntry_removeEntry_self (l : List (CacheKey × Buffer)) (k : CacheKey) :
    lookupEntry (removeEntry l k) k = none := by
  rw [lookupEntry_eq_none_iff]
  intro e he
  have := List.of_mem_filter he
  simpa using this

/-- Removing another key does not disturb a lookup. -/
theorem lookupEntry_removeEntry_ne (l : List (CacheKey × Buffer))
    {k k' : CacheKey} (h : k' ≠ k) :
    lookupEntry (removeEntry l k) k' = lookupEntry l k' := by
  induction l with
  | nil => rfl
  | cons e rest ih =>
      by_cases he : e.1 = k
      · have : removeEntry (e :: rest) k = removeEntry rest k := by
          simp [removeEntry, List.filter, he]
        rw [this, ih, lookupEntry_cons, if_neg]
        intro hek
        exact h (hek ▸ he ▸ rfl)
      · have : removeEntry (e :: rest) k = e :: removeEntry rest k := by
          simp [removeEntry, List.filter, he]
        rw [this, lookupEntry_cons, lookupEntry_cons, ih]

/-- Removal keeps keys distinct. -/
theorem distinctKeys_removeEntry {l : List (CacheKey × Buffer)} (k : CacheKey)
    (hd : DistinctKeys l) : DistinctKeys (removeEntry l k) :=
  List.Pairwise.sublist (List.filter_sublist l) hd

/-- Removing a key absent from the store does nothing. -/
theorem removeEntry_eq_self {l : List (CacheKey × Buffer)} {k : CacheKey}
    (h : ∀ e ∈ l, e.1 ≠ k) : removeEntry l k = l := by
  induction l with
  | nil => rfl
  | cons e rest ih =>
      have he : e.1 ≠ k := h e (List.mem_cons_self e rest)
      have : removeEntry (e :: rest) k = e :: removeEntry rest k := by
        simp [removeEntry, List.filter, he]
      rw [this, ih (fun e' he' => h e' (List.mem_cons_of_mem _ he'))]

/-- Removing a present key takes away exactly its byte size. -/
theorem entriesSize_removeEntry {l : List (CacheKey × Buffer)}
    {k : CacheKey} {d : Buffer} (hd : DistinctKeys l)
    (h : lookupEntry l k = some d) :
    entriesSize (removeEntry l k) + d.length = entriesSize l := by
  induction l with
  | nil => simp [lookupEntry_nil] at h
  | cons e rest ih =>
      rcases List.pairwise_cons.mp hd with ⟨hhead, hrest⟩
      rw [lookupEntry_cons] at h
      by_cases he : e.1 = k
      · rw [if_pos he] at h
        have hdrop : removeEntry (e :: rest) k = removeEntry rest k := by
          simp [removeEntry, List.filter, he]
        have hrest_none : ∀ e' ∈ rest, e'.1 ≠ k := by
          intro e' he'
          exact fun hk => hhead e' he' (he.trans hk.symm)
        rw [hdrop, removeEntry_eq_self hrest_none]
        have : d = e.2 := by injection h with h'; exact h'.symm
        subst this
        simp [entriesSize, Nat.add_comm]
      · rw [if_neg he] at h
        have hkeep : removeEntry (e :: rest) k = e :: removeEntry rest k := by
          simp [removeEntry, List.filter, he]
        rw [hkeep]
        have := ih hrest h
        simp [entriesSize] at this ⊢
        omega

end VodCache

namespace VodCache

/-- Replacing a key that occurs nowhere changes nothing. -/
theorem map_replace_eq_self {l : List (CacheKey × Buffer)} {k : CacheKey}
    {d : Buffer} (h : ∀ e ∈ l, e.1 ≠ k) :
    l.map (fun e => if e.1 = k then (k, d) else e) = l := by
  induction l with
  | nil => rfl
  | cons e rest ih =>
      have he : e.1 ≠ k := h e (List.mem_cons_self e rest)
      simp only [List.map_cons, if_neg he]
      rw [ih (fun e' he' => h e' (List.mem_cons_of_mem _ he'))]

/-- The in-place overwrite keeps every key where it was. -/
theorem fst_replace (k : CacheKey) (d : Buffer) (e : CacheKey × Buffer) :
    (if e.1 = k then (k, d) else e).1 = e.1 := by
  by_cases h : e.1 = k
  · simp [h]
  · simp [h]

/-- The key just stored is found, with the stored bytes. -/
theorem lookupEntry_setEntry_self (l : List (CacheKey × Buffer))
    (k : CacheKey) (d : Buffer) :
    lookupEntry (setEntry l k d) k = some d := by
  unfold setEntry
  by_cases h : containsKey l k = true
  · rw [if_pos h]
    unfold containsKey at h
    rw [Option.isSome_iff_exists] at h
    obtain ⟨d0, hd0⟩ := h
    induction l with
    | nil => simp [lookupEntry_nil] at hd0
    | cons e rest ih =>
        rw [lookupEntry_cons] at hd0
        by_cases he : e.1 = k
        · simp [lookupEntry_cons, he]
        · rw [if_neg he] at hd0
          simp only [List.map_cons, if_neg he]
          rw [lookupEntry_cons, if_neg he]
          exact ih hd0
  · rw [if_neg h]
    induction l with
    | nil => simp [lookupEntry_cons]
    | cons e rest ih =>
        unfold containsKey at h ih
        rw [lookupEntry_cons] at h
        by_cases he : e.1 = k
        · rw [if_pos he] at h; simp at h
        · rw [if_neg he] at h
          have := ih h
          simpa [lookupEntry_cons, he] using this

/-- Storing keeps keys pairwise distinct. -/
theorem distinctKeys_setEntry {l : List (CacheKey × Buffer)}
    (k : CacheKey) (d : Buffer) (hd : DistinctKeys l) :
    DistinctKeys (setEntry l k d) := by
  unfold setEntry
  by_cases h : containsKey l k = true
  · rw [if_pos h]
    unfold DistinctKeys at hd ⊢
    rw [List.pairwise_map]
    refine hd.imp_of_mem ?_
    intro a b _ _ hab
    rw [fst_replace, fst_replace]
    exact hab
  · rw [if_neg h]
    unfold DistinctKeys
    rw [List.pairwise_append]
    refine ⟨hd, List.pairwise_singleton _ _, ?_⟩
    intro a ha b hb
    have hb' : b = (k, d) := by simpa using hb
    subst hb'
    have hnone : lookupEntry l k = none := by
      unfold containsKey at h
      cases hcase : lookupEntry l k with
      | none => rfl
      | some d0 => rw [hcase] at h; simp at h
    exact (lookupEntry_eq_none_iff l k).mp hnone a ha

/-- In-place overwrite grows the byte total by at most the new length. -/
theorem entriesSize_setEntry_le {l : List (CacheKey × Buffer)}
    (k : CacheKey) (d : Buffer) (hd : DistinctKeys l) :
    entriesSize (setEntry l k d) ≤ entriesSize l + d.length := by
  unfold setEntry
  by_cases h : containsKey l k = true
  · rw [if_pos h]
    clear h
    induction l with
    | nil => simp [entriesSize]
    | cons e rest ih =>
        rcases List.pairwise_cons.mp hd with ⟨hhead, hrest⟩
        by_cases he : e.1 = k
        · have hrest_id : ∀ e' ∈ rest, e'.1 ≠ k :=
            fun e' he' hk => hhead e' he' (he.trans hk.symm)
          simp only [List.map_cons, if_pos he, map_replace_eq_self hrest_id]
          simp [entriesSize]
          omega
        · simp only [List.map_cons, if_neg he]
          have := ih hrest
          simp [entriesSize] at this ⊢
          omega
  · rw [if_neg h]
    simp [entriesSize]

end VodCache

namespace VodCache

/-- Stable insertion permutes. -/
theorem insertEv_perm (x : EvEntry) (l : List EvEntry) :
    (insertEv x l).Perm (x :: l) := by
  induction l with
  | nil => rfl
  | cons y ys ih =>
      unfold insertEv
      by_cases h : y.accessCount < x.accessCount
      · rw [if_pos h]
        exact (ih.cons y).trans (List.Perm.swap x y ys)
      · rw [if_neg h]

/-- The sort permutes the scan. -/
theorem evSort_perm (l : List EvEntry) : (evSort l).Perm l := by
  induction l with
  | nil => rfl
  | cons x xs ih => exact (insertEv_perm x (evSort xs)).trans (ih.cons x)

/-- Membership in an insertion. -/
theorem mem_insertEv {z x : EvEntry} {l : List EvEntry}
    (h : z ∈ insertEv x l) : z = x ∨ z ∈ l :=
  List.mem_cons.mp ((insertEv_perm x l).mem_iff.mp h)

/-- Insertion into an ascending list stays ascending. -/
theorem insertEv_sorted (x : EvEntry) {l : List EvEntry}
    (h : l.Pairwise (fun a b => a.accessCount ≤ b.accessCount)) :
    (insertEv x l).Pairwise (fun a b => a.accessCount ≤ b.accessCount) := by
  induction l with
  | nil => simp [insertEv]
  | cons y ys ih =>
      rcases List.pairwise_cons.mp h with ⟨hy, hys⟩
      unfold insertEv
      by_cases hc : y.accessCount < x.accessCount
      · rw [if_pos hc]
        rw [List.pairwise_cons]
        refine ⟨?_, ih hys⟩
        intro z hz
        rcases mem_insertEv hz with hzx | hzl
        · subst hzx; exact Nat.le_of_lt hc
        · exact hy z hzl
      · rw [if_neg hc]
        rw [List.pairwise_cons]
        refine ⟨?_, h⟩
        intro z hz
        rcases List.mem_cons.mp hz with hzy | hzl
        · subst hzy; exact Nat.le_of_not_lt hc
        · exact Nat.le_trans (Nat.le_of_not_lt hc) (hy z hzl)

/-- The eviction order is ascending in access count. -/
theorem evSort_sorted (l : List EvEntry) :
    (evSort l).Pairwise (fun a b => a.accessCount ≤ b.accessCount) := by
  induction l with
  | nil => simp [evSort]
  | cons x xs ih => exact insertEv_sorted x ih

end VodCache

namespace VodCache

/-- Removing no keys is the identity. -/
theorem removeKeys_nil (l : List (CacheKey × Buffer)) : removeKeys [] l = l := by
  induction l with
  | nil => rfl
  | cons e rest ih =>
      unfold removeKeys at ih ⊢
      simp [List.filter, ih]

/-- Removing a batch of keys one key at a time. -/
theorem removeKeys_cons (k : CacheKey) (ks : List CacheKey)
    (l : List (CacheKey × Buffer)) :
    removeKeys (k :: ks) l = removeKeys ks (removeEntry l k) := by
  induction l with
  | nil => rfl
  | cons e rest ih =>
      unfold removeKeys removeEntry at ih ⊢
      by_cases he : e.1 = k
      · have h1 : (decide (¬ e.1 ∈ k :: ks)) = false := by simp [he]
        have h2 : (decide (e.1 ≠ k)) = false := by simp [he]
        simp only [List.filter, h1, h2]
        exact ih
      · by_cases hks : e.1 ∈ ks
        · have h1 : (decide (¬ e.1 ∈ k :: ks)) = false := by simp [hks]
          have h2 : (decide (e.1 ≠ k)) = true := by simp [he]
          have h3 : (decide (¬ e.1 ∈ ks)) = false := by simp [hks]
          simp only [List.filter, h1, h2, h3]
          exact ih
        · have h1 : (decide (¬ e.1 ∈ k :: ks)) = true := by simp [he, hks]
          have h2 : (decide (e.1 ≠ k)) = true := by simp [he]
          have h3 : (decide (¬ e.1 ∈ ks)) = true := by simp [hks]
          simp only [List.filter, h1, h2, h3]
          rw [ih]

/-- Removing keys that cover the whole store empties it. -/
theorem removeKeys_eq_nil {ks : List CacheKey} {l : List (CacheKey × Buffer)}
    (h : ∀ e ∈ l, e.1 ∈ ks) : removeKeys ks l = [] := by
  unfold removeKeys
  rw [List.filter_eq_nil_iff]
  intro e he
  simp [h e he]

/-- The eviction loop only ever deletes entries. -/
theorem runEviction_sublist (r : Nat) (l : List EvEntry)
    (store : List (CacheKey × Buffer)) (freed : Nat) (sz : Int) :
    (runEviction r l store freed sz).1.Sublist store := by
  induction l generalizing store freed sz with
  | nil => simp [runEviction]
  | cons e rest ih =>
      unfold runEviction
      by_cases h : r ≤ freed
      · rw [if_pos h]
      · rw [if_neg h]
        cases hl : lookupEntry store e.key with
        | some d =>
            exact ((ih (removeEntry store e.key) _ _).trans (List.filter_sublist store))
        | none => exact ih store freed sz

/-- What the eviction loop computes, in terms of its plan: remove the
planned keys, tally the planned bytes onto the freed total, and deduct
them from the size statistic. -/
theorem runEviction_eq (r : Nat) (l : List EvEntry)
    (store : List (CacheKey × Buffer)) (freed : Nat) (sz : Int)
    (hd : DistinctKeys store)
    (hl : l.Pairwise (fun a b => a.key ≠ b.key))
    (hmem : ∀ ev ∈ l, ∃ d, lookupEntry store ev.key = some d ∧ d.length = ev.size) :
    runEviction r l store freed sz
      = (removeKeys ((evictPlan r l freed).map (fun e => e.key)) store,
         freed + evSizes (evictPlan r l freed),
         sz - (evSizes (evictPlan r l freed) : Int)) := by
  induction l generalizing store freed sz with
  | nil =>
      simp [runEviction, evictPlan, evSizes, removeKeys_nil]
  | cons e rest ih =>
      rcases List.pairwise_cons.mp hl with ⟨hhead, hrest⟩
      unfold runEviction evictPlan
      by_cases h : r ≤ freed
      · rw [if_pos h, if_pos h]
        simp [evSizes, removeKeys_nil]
      · rw [if_neg h, if_neg h]
        obtain ⟨d, hlook, _⟩ := hmem e (List.mem_cons_self e rest)
        rw [hlook]
        have hmem' : ∀ ev ∈ rest,
            ∃ d', lookupEntry (removeEntry store e.key) ev.key = some d'
              ∧ d'.length = ev.size := by
          intro ev hev
          obtain ⟨d', hl', hs'⟩ := hmem ev (List.mem_cons_of_mem _ hev)
          refine ⟨d', ?_, hs'⟩
          rw [lookupEntry_removeEntry_ne store (Ne.symm (hhead ev hev))]
          exact hl'
        show runEviction r rest (removeEntry store e.key)
            (freed + e.size) (sz - (e.size : Int)) = _
        rw [ih (removeEntry store e.key) (freed + e.size) (sz - (e.size : Int))
              (distinctKeys_removeEntry e.key hd) hrest hmem']
        have hsz : evSizes (e :: evictPlan r rest (freed + e.size))
            = e.size + evSizes (evictPlan r rest (freed + e.size)) := by
          simp [evSizes]
        rw [List.map_cons, removeKeys_cons, hsz]
        simp only [Prod.mk.injEq]
        refine ⟨trivial, ?_, ?_⟩
        · omega
        · push_cast
          ring

/-- Either the plan frees at least the requested amount, or it is the
entire list. -/
theorem evictPlan_ge_or_all (r : Nat) (l : List EvEntry) (freed : Nat) :
    r ≤ freed + evSizes (evictPlan r l freed) ∨ evictPlan r l freed = l := by
  induction l generalizing freed with
  | nil => right; rfl
  | cons e rest ih =>
      unfold evictPlan
      by_cases h : r ≤ freed
      · rw [if_pos h]; left; simp [evSizes]; omega
      · rw [if_neg h]
        rcases ih (freed + e.size) with hge | hall
        · left
          have : evSizes (e :: evictPlan r rest (freed + e.size))
              = e.size + evSizes (evictPlan r rest (freed + e.size)) := by
            simp [evSizes]
          omega
        · right; rw [hall]

/-- Every proper initial segment of the plan frees strictly less than
the requested amount: the loop stops as soon as the total is reached. -/
theorem evictPlan_proper_initial_lt (r : Nat) (l : List EvEntry) :
    ∀ (freed : Nat) (q t : List EvEntry), q ++ t = evictPlan r l freed →
      t ≠ [] → freed + evSizes q < r := by
  induction l with
  | nil =>
      intro freed q t happ ht
      unfold evictPlan at happ
      rcases List.append_eq_nil.mp happ with ⟨_, ht'⟩
      exact absurd ht' ht
  | cons e rest ih =>
      intro freed q t happ ht
      unfold evictPlan at happ
      by_cases h : r ≤ freed
      · rw [if_pos h] at happ
        rcases List.append_eq_nil.mp happ with ⟨_, ht'⟩
        exact absurd ht' ht
      · rw [if_neg h] at happ
        cases q with
        | nil => simpa [evSizes] using Nat.lt_of_not_le h
        | cons q0 q' =>
            rw [List.cons_append] at happ
            injection happ with h1 h2
            subst h1
            have := ih (freed + q0.size) q' t h2 ht
            have hsz : evSizes (q0 :: q') = q0.size + evSizes q' := by
              simp [evSizes]
            omega

end VodCache

namespace VodCache

/-- cleanupCache never touches the hit counter. -/
theorem cleanupCache_hits (st : CacheState) (r : Nat) :
    (cleanupCache st r).hits = st.hits := by
  unfold cleanupCache
  split <;> rfl

/-- cleanupCache never touches the miss counter. -/
theorem cleanupCache_misses (st : CacheState) (r : Nat) :
    (cleanupCache st r).misses = st.misses := by
  unfold cleanupCache
  split <;> rfl

/-- cleanupCache never touches the per-video access counters. -/
theorem cleanupCache_videoAccess (st : CacheState) (r : Nat) :
    (cleanupCache st r).videoAccess = st.videoAccess := by
  unfold cleanupCache
  split <;> rfl

/-- With distinct store keys, the eviction order has distinct keys. -/
theorem evictionOrder_pairwise_keys (st : CacheState) (hd : DistinctKeys st.entries) :
    (evictionOrder st).Pairwise (fun a b => a.key ≠ b.key) := by
  have hb : (buildEvictionEntries st).Pairwise (fun a b => a.key ≠ b.key) := by
    unfold buildEvictionEntries
    rw [List.pairwise_map]
    exact hd
  exact ((evSort_perm (buildEvictionEntries st)).pairwise_iff
    (fun {x y} hab he => hab he.symm)).mpr hb

/-- Every record of the eviction order names a resident entry of its
recorded size. -/
theorem evictionOrder_mem (st : CacheState) (hd : DistinctKeys st.entries) :
    ∀ ev ∈ evictionOrder st,
      ∃ d, lookupEntry st.entries ev.key = some d ∧ d.length = ev.size := by
  intro ev hev
  have hmem : ev ∈ buildEvictionEntries st :=
    (evSort_perm (buildEvictionEntries st)).mem_iff.mp hev
  unfold buildEvictionEntries at hmem
  obtain ⟨e, he, rfl⟩ := List.mem_map.mp hmem
  exact ⟨e.2, lookupEntry_eq_of_mem hd he, rfl⟩

/-- The plan walks an initial segment of the order. -/
theorem evictPlan_sublist (r : Nat) (l : List EvEntry) (freed : Nat) :
    (evictPlan r l freed).Sublist l := by
  induction l generalizing freed with
  | nil => simp [evictPlan]
  | cons e rest ih =>
      unfold evictPlan
      by_cases h : r ≤ freed
      · rw [if_pos h]; exact List.nil_sublist _
      · rw [if_neg h]; exact (ih (freed + e.size)).cons₂ e

/-- cleanupCache removes exactly the planned keys and deducts exactly
the planned bytes from the size statistic. -/
theorem cleanupCache_spec (st : CacheState) (r : Nat) (hd : DistinctKeys st.entries) :
    (cleanupCache st r).entries = removeKeys (planKeys st r) st.entries ∧
    (cleanupCache st r).size = st.size - (planBytes st r : Int) := by
  by_cases he : st.entries.isEmpty
  · have hnil : st.entries = [] := by
      cases hl : st.entries with
      | nil => rfl
      | cons a l => rw [hl] at he; simp [List.isEmpty] at he
    have hplan : planBytes st r = 0 := by
      unfold planBytes evictionPlan evictionOrder buildEvictionEntries
      rw [hnil]
      rfl
    unfold cleanupCache
    rw [if_pos he, hplan]
    constructor
    · rw [hnil]
      rfl
    · simp
  · have hpair := evictionOrder_pairwise_keys st hd
    have hmem := evictionOrder_mem st hd
    have hrun := runEviction_eq r (evictionOrder st) st.entries 0 st.size hd hpair hmem
    unfold evictionOrder at hrun
    unfold cleanupCache
    rw [if_neg he]
    show (runEviction r (evSort (buildEvictionEntries st)) st.entries 0 st.size).1
          = removeKeys (planKeys st r) st.entries ∧
        (runEviction r (evSort (buildEvictionEntries st)) st.entries 0 st.size).2.2
          = st.size - (planBytes st r : Int)
    rw [hrun]
    exact ⟨rfl, rfl⟩

end VodCache

namespace VodCache

/-- Removing a batch of distinct, resident keys takes away exactly
their recorded byte sizes. -/
theorem removeKeys_plan_entriesSize :
    ∀ (p : List EvEntry) (l : List (CacheKey × Buffer)),
      DistinctKeys l →
      p.Pairwise (fun a b => a.key ≠ b.key) →
      (∀ ev ∈ p, ∃ d, lookupEntry l ev.key = some d ∧ d.length = ev.size) →
      entriesSize (removeKeys (p.map (fun e => e.key)) l) + evSizes p = entriesSize l := by
  intro p
  induction p with
  | nil =>
      intro l _ _ _
      simp [removeKeys_nil, evSizes]
  | cons e rest ih =>
      intro l hd hp hm
      rcases List.pairwise_cons.mp hp with ⟨hhead, hrest⟩
      obtain ⟨d, hld, hsize⟩ := hm e (List.mem_cons_self e rest)
      rw [List.map_cons, removeKeys_cons]
      have hm' : ∀ ev ∈ rest,
          ∃ d', lookupEntry (removeEntry l e.key) ev.key = some d'
            ∧ d'.length = ev.size := by
        intro ev hev
        obtain ⟨d', hl', hs'⟩ := hm ev (List.mem_cons_of_mem _ hev)
        refine ⟨d', ?_, hs'⟩
        rw [lookupEntry_removeEntry_ne l (Ne.symm (hhead ev hev))]
        exact hl'
      have hihd := ih (removeEntry l e.key) (distinctKeys_removeEntry e.key hd) hrest hm'
      have hrem := entriesSize_removeEntry hd hld
      have hsz : evSizes (e :: rest) = e.size + evSizes rest := by simp [evSizes]
      omega

/-- Which entries the eviction order covers: one per store entry. -/
theorem mem_planKeys_of_all (st : CacheState) (r : Nat)
    (hall : evictionPlan st r = evictionOrder st) :
    ∀ e ∈ st.entries, e.1 ∈ planKeys st r := by
  intro e he
  unfold planKeys
  rw [hall]
  have hb : (⟨e.1, e.2.length, st.videoAccess e.1.videoId⟩ : EvEntry)
      ∈ buildEvictionEntries st := by
    unfold buildEvictionEntries
    exact List.mem_map_of_mem _ he
  have ho : (⟨e.1, e.2.length, st.videoAccess e.1.videoId⟩ : EvEntry)
      ∈ evictionOrder st :=
    (evSort_perm (buildEvictionEntries st)).mem_iff.mpr hb
  exact List.mem_map_of_mem _ ho

/-- The combined effect of a cleanup call on a well-formed state: keys
stay distinct, the size statistic still dominates the byte total, and
either at least the requested space was freed from the byte total or
the store was emptied. -/
theorem cleanupCache_bound (st : CacheState) (r : Nat) (hwf : WellFormed st) :
    WellFormed (cleanupCache st r) ∧
    (entriesSize (cleanupCache st r).entries + r ≤ entriesSize st.entries
      ∨ (cleanupCache st r).entries = []) := by
  obtain ⟨hd, hsz⟩ := hwf
  obtain ⟨hent, hsize⟩ := cleanupCache_spec st r hd
  have hplan_pair : (evictionPlan st r).Pairwise (fun a b => a.key ≠ b.key) :=
    List.Pairwise.sublist (evictPlan_sublist r (evictionOrder st) 0)
      (evictionOrder_pairwise_keys st hd)
  have hplan_mem : ∀ ev ∈ evictionPlan st r,
      ∃ d, lookupEntry st.entries ev.key = some d ∧ d.length = ev.size := by
    intro ev hev
    exact evictionOrder_mem st hd ev
      ((evictPlan_sublist r (evictionOrder st) 0).mem hev)
  have hsizes := removeKeys_plan_entriesSize (evictionPlan st r) st.entries hd
    hplan_pair hplan_mem
  have hbytes : evSizes (evictionPlan st r) = planBytes st r := rfl
  have hkeys : (evictionPlan st r).map (fun e => e.key) = planKeys st r := rfl
  rw [hbytes, hkeys] at hsizes
  have hdist' : DistinctKeys (cleanupCache st r).entries := by
    rw [hent]
    exact List.Pairwise.sublist (List.filter_sublist st.entries) hd
  have hint : (entriesSize (cleanupCache st r).entries : Int)
      ≤ (cleanupCache st r).size := by
    rw [hent, hsize]
    have : entriesSize (removeKeys (planKeys st r) st.entries) + planBytes st r
        = entriesSize st.entries := hsizes
    omega
  refine ⟨⟨hdist', hint⟩, ?_⟩
  rcases evictPlan_ge_or_all r (evictionOrder st) 0 with hge | hall
  · left
    have : r ≤ planBytes st r := by
      unfold planBytes evictionPlan
      unfold evSizes at hge
      omega
    rw [hent]
    omega
  · right
    rw [hent]
    exact removeKeys_eq_nil (mem_planKeys_of_all st r hall)

end VodCache

namespace VodCache

/-- getCachedSegment never changes the store or the size statistic. -/
theorem getCachedSegment_entries_size (cfg : Config) (st : CacheState)
    (videoId segmentNumber : Nat) :
    (getCachedSegment cfg st videoId segmentNumber).2.entries = st.entries ∧
    (getCachedSegment cfg st videoId segmentNumber).2.size = st.size := by
  unfold getCachedSegment
  cases lookupEntry st.entries ⟨videoId, segmentNumber⟩ with
  | some d =>
      by_cases h : cfg.enableStats = true
      · simp [h]
      · simp [h]
  | none =>
      by_cases h : cfg.enableStats = true
      · simp [h]
      · simp [h]

/-- A store-and-grow step keeps well-formedness and the byte budget,
provided the stored buffer itself fits in the budget. -/
theorem cacheSegment_bound (cfg : Config) (st : CacheState)
    (videoId segmentNumber : Nat) (data : Buffer)
    (hwf : WellFormed st)
    (hbound : entriesSize st.entries ≤ cfg.maxCacheSize)
    (hdata : data.length ≤ cfg.maxCacheSize) :
    WellFormed (cacheSegment cfg st videoId segmentNumber data).2 ∧
    entriesSize (cacheSegment cfg st videoId segmentNumber data).2.entries
      ≤ cfg.maxCacheSize := by
  unfold cacheSegment
  by_cases h : (cfg.maxCacheSize : Int) < st.size + (data.length : Int)
  · rw [if_pos h]
    obtain ⟨⟨hd1, hi1⟩, hcase⟩ := cleanupCache_bound st data.length hwf
    have hfits : entriesSize (cleanupCache st data.length).entries + data.length
        ≤ cfg.maxCacheSize := by
      rcases hcase with hfree | hempty
      · omega
      · rw [hempty]
        simpa [entriesSize] using hdata
    constructor
    · constructor
      · exact distinctKeys_setEntry _ data hd1
      · have hle := entriesSize_setEntry_le (⟨videoId, segmentNumber⟩ : CacheKey) data hd1
        show (entriesSize (setEntry (cleanupCache st data.length).entries _ data) : Int)
          ≤ (cleanupCache st data.length).size + (data.length : Int)
        omega
    · have hle := entriesSize_setEntry_le (⟨videoId, segmentNumber⟩ : CacheKey) data hd1
      show entriesSize (setEntry (cleanupCache st data.length).entries _ data)
        ≤ cfg.maxCacheSize
      omega
  · rw [if_neg h]
    obtain ⟨hd0, hi0⟩ := hwf
    have hle := entriesSize_setEntry_le (⟨videoId, segmentNumber⟩ : CacheKey) data hd0
    constructor
    · constructor
      · exact distinctKeys_setEntry _ data hd0
      · show (entriesSize (setEntry st.entries _ data) : Int)
          ≤ st.size + (data.length : Int)
        omega
    · show entriesSize (setEntry st.entries _ data) ≤ cfg.maxCacheSize
      omega

/-- One public operation, applied to a well-formed state inside the
budget with its payload inside the budget, lands inside the budget. -/
theorem applyOp_bound (cfg : Config) (st : CacheState) (op : CacheOp)
    (hwf : WellFormed st)
    (hbound : entriesSize st.entries ≤ cfg.maxCacheSize)
    (hop : opDataLength op ≤ cfg.maxCacheSize) :
    WellFormed (applyOp cfg st op) ∧
    entriesSize (applyOp cfg st op).entries ≤ cfg.maxCacheSize := by
  cases op with
  | get v s =>
      obtain ⟨he, hs⟩ := getCachedSegment_entries_size cfg st v s
      unfold applyOp
      rw [WellFormed, he, hs]
      exact ⟨hwf, hbound⟩
  | seg v s data =>
      exact cacheSegment_bound cfg st v s data hwf hbound hop
  | segFromFile v s file a b =>
      have hred : applyOp cfg st (CacheOp.segFromFile v s file a b)
          = (cacheSegmentFromFile cfg st v s file a b).2.1 := rfl
      rw [hred]
      unfold cacheSegmentFromFile
      by_cases h1 : containsKey st.entries ⟨v, s⟩ = true
      · rw [if_pos h1]; exact ⟨hwf, hbound⟩
      · rw [if_neg h1]
        by_cases h2 : (cfg.enableStats &&
            (st.videoAccess v == 0 ||
              decide (st.videoAccess v < cfg.popularityThreshold))) = true
        · rw [if_pos h2]; exact ⟨hwf, hbound⟩
        · rw [if_neg h2]
          by_cases h3 : (decide (cfg.maxSegmentsPerVideo
              ≤ countCachedSegmentsForVideo st.entries v)) = true
          · rw [if_pos h3]; exact ⟨hwf, hbound⟩
          · rw [if_neg h3]
            exact cacheSegment_bound cfg st v s (readFileSegment file a b) hwf hbound hop
  | resetStats =>
      unfold applyOp resetCacheStats
      exact ⟨hwf, hbound⟩
  | clear =>
      unfold applyOp clearCache
      refine ⟨⟨List.Pairwise.nil, ?_⟩, ?_⟩
      · simp [entriesSize]
      · simp [entriesSize]

/-- Folding any operation sequence whose payloads each fit in the
budget keeps a well-formed in-budget state in budget. -/
theorem runOps_bound (cfg : Config) (ops : List CacheOp) :
    ∀ st : CacheState, WellFormed st →
      entriesSize st.entries ≤ cfg.maxCacheSize →
      (∀ op ∈ ops, opDataLength op ≤ cfg.maxCacheSize) →
      WellFormed (runOps cfg ops st) ∧
      entriesSize (runOps cfg ops st).entries ≤ cfg.maxCacheSize := by
  induction ops with
  | nil =>
      intro st hwf hb _
      exact ⟨hwf, hb⟩
  | cons op rest ih =>
      intro st hwf hb hops
      have hstep := applyOp_bound cfg st op hwf hb
        (hops op (List.mem_cons_self op rest))
      have := ih (applyOp cfg st op) hstep.1 hstep.2
        (fun op' hop' => hops op' (List.mem_cons_of_mem _ hop'))
      exact this

end VodCache

namespace VodCache

/-- Fewer entries, no larger a per-video count. -/
theorem count_sublist_le {l1 l2 : List (CacheKey × Buffer)} (h : l1.Sublist l2)
    (v : Nat) :
    countCachedSegmentsForVideo l1 v ≤ countCachedSegmentsForVideo l2 v :=
  List.Sublist.length_le (List.Sublist.filter _ h)

/-- cleanupCache only removes entries. -/
theorem cleanupCache_entries_sublist (st : CacheState) (r : Nat) :
    (cleanupCache st r).entries.Sublist st.entries := by
  unfold cleanupCache
  by_cases he : st.entries.isEmpty
  · rw [if_pos he]
  · rw [if_neg he]
    exact runEviction_sublist r _ st.entries 0 st.size

/-- In-place overwrite never changes per-video counts. -/
theorem count_replace_eq (l : List (CacheKey × Buffer)) (k : CacheKey)
    (d : Buffer) (v : Nat) :
    countCachedSegmentsForVideo (l.map (fun e => if e.1 = k then (k, d) else e)) v
      = countCachedSegmentsForVideo l v := by
  induction l with
  | nil => rfl
  | cons e rest ih =>
      unfold countCachedSegmentsForVideo at ih ⊢
      rw [List.map_cons, List.filter_cons, List.filter_cons]
      by_cases he : e.1 = k
      · have hrep : (if e.1 = k then (k, d) else e) = (k, d) := if_pos he
        rw [hrep]
        by_cases hv : e.1.videoId = v
        · have hkv : k.videoId = v := by rw [← he]; exact hv
          rw [if_pos (by simp [hkv]), if_pos (by simp [hv])]
          simp [ih]
        · have hkv : ¬ k.videoId = v := by rw [← he]; exact hv
          rw [if_neg (by simp [hkv]), if_neg (by simp [hv])]
          exact ih
      · have hrep : (if e.1 = k then (k, d) else e) = e := if_neg he
        rw [hrep]
        by_cases hv : e.1.videoId = v
        · rw [if_pos (by simp [hv]), if_pos (by simp [hv])]
          simp [ih]
        · rw [if_neg (by simp [hv]), if_neg (by simp [hv])]
          exact ih

/-- Storing at a key grows the owner's count by at most one and no
other video's count at all. -/
theorem count_setEntry_le (l : List (CacheKey × Buffer)) (k : CacheKey)
    (d : Buffer) (v : Nat) :
    countCachedSegmentsForVideo (setEntry l k d) v
      ≤ countCachedSegmentsForVideo l v + (if k.videoId = v then 1 else 0) := by
  unfold setEntry
  by_cases h : containsKey l k = true
  · rw [if_pos h, count_replace_eq]
    by_cases hv : k.videoId = v <;> simp [hv]
  · rw [if_neg h]
    unfold countCachedSegmentsForVideo
    rw [List.filter_append]
    by_cases hv : k.videoId = v <;> simp [List.filter, hv]

/-- Effect of a store-and-grow step on per-video counts. -/
theorem cacheSegment_count_le (cfg : Config) (st : CacheState)
    (videoId segmentNumber : Nat) (data : Buffer) (v : Nat) :
    countCachedSegmentsForVideo (cacheSegment cfg st videoId segmentNumber data).2.entries v
      ≤ countCachedSegmentsForVideo st.entries v + (if videoId = v then 1 else 0) := by
  have hent : (cacheSegment cfg st videoId segmentNumber data).2.entries
      = setEntry (if (cfg.maxCacheSize : Int) < st.size + (data.length : Int) then
          cleanupCache st data.length else st).entries
        ⟨videoId, segmentNumber⟩ data := rfl
  rw [hent]
  by_cases h : (cfg.maxCacheSize : Int) < st.size + (data.length : Int)
  · rw [if_pos h]
    have h1 := count_setEntry_le (cleanupCache st data.length).entries
      ⟨videoId, segmentNumber⟩ data v
    have h2 := count_sublist_le (cleanupCache_entries_sublist st data.length) v
    have hkey : (⟨videoId, segmentNumber⟩ : CacheKey).videoId = videoId := rfl
    rw [hkey] at h1
    omega
  · rw [if_neg h]
    have h1 := count_setEntry_le st.entries ⟨videoId, segmentNumber⟩ data v
    have hkey : (⟨videoId, segmentNumber⟩ : CacheKey).videoId = videoId := rfl
    rw [hkey] at h1
    exact h1

/-- Any operation other than a raw cacheSegment preserves the per-video
segment cap. -/
theorem applyOp_cap (cfg : Config) (st : CacheState) (op : CacheOp)
    (hop : isRawCacheSegment op = false)
    (h : ∀ w, countCachedSegmentsForVideo st.entries w ≤ cfg.maxSegmentsPerVideo) :
    ∀ w, countCachedSegmentsForVideo (applyOp cfg st op).entries w
      ≤ cfg.maxSegmentsPerVideo := by
  intro w
  cases op with
  | get v s =>
      have he := (getCachedSegment_entries_size cfg st v s).1
      have hred : applyOp cfg st (CacheOp.get v s) = (getCachedSegment cfg st v s).2 := rfl
      rw [hred, he]
      exact h w
  | seg v s data => simp [isRawCacheSegment] at hop
  | segFromFile v s file a b =>
      have hred : applyOp cfg st (CacheOp.segFromFile v s file a b)
          = (cacheSegmentFromFile cfg st v s file a b).2.1 := rfl
      rw [hred]
      unfold cacheSegmentFromFile
      by_cases h1 : containsKey st.entries ⟨v, s⟩ = true
      · rw [if_pos h1]; exact h w
      · rw [if_neg h1]
        by_cases h2 : (cfg.enableStats &&
            (st.videoAccess v == 0 ||
              decide (st.videoAccess v < cfg.popularityThreshold))) = true
        · rw [if_pos h2]; exact h w
        · rw [if_neg h2]
          by_cases h3 : (decide (cfg.maxSegmentsPerVideo
              ≤ countCachedSegmentsForVideo st.entries v)) = true
          · rw [if_pos h3]; exact h w
          · rw [if_neg h3]
            show countCachedSegmentsForVideo
                (cacheSegment cfg st v s (readFileSegment file a b)).2.entries w
              ≤ cfg.maxSegmentsPerVideo
            have hlt : countCachedSegmentsForVideo st.entries v < cfg.maxSegmentsPerVideo := by
              have := of_decide_eq_false (Bool.of_not_eq_true h3)
              omega
            have hcnt := cacheSegment_count_le cfg st v s (readFileSegment file a b) w
            by_cases hv : v = w
            · subst hv
              simp at hcnt
              have := h v
              omega
            · simp [hv] at hcnt
              have := h w
              omega
  | resetStats => exact h w
  | clear =>
      have : countCachedSegmentsForVideo (applyOp cfg st CacheOp.clear).entries w
          = 0 := rfl
      omega

/-- A sequence free of raw cacheSegment calls preserves the cap. -/
theorem runOps_cap (cfg : Config) (ops : List CacheOp) :
    ∀ st : CacheState, (∀ op ∈ ops, isRawCacheSegment op = false) →
      (∀ w, countCachedSegmentsForVideo st.entries w ≤ cfg.maxSegmentsPerVideo) →
      ∀ w, countCachedSegmentsForVideo (runOps cfg ops st).entries w
        ≤ cfg.maxSegmentsPerVideo := by
  induction ops with
  | nil => intro st _ h w; exact h w
  | cons op rest ih =>
      intro st hops h w
      exact ih (applyOp cfg st op)
        (fun op' hop' => hops op' (List.mem_cons_of_mem _ hop'))
        (applyOp_cap cfg st op (hops op (List.mem_cons_self op rest)) h) w

end VodCache

namespace VodCache

/-- Storing a segment never touches the per-video access counters. -/
theorem cacheSegment_videoAccess (cfg : Config) (st : CacheState)
    (videoId segmentNumber : Nat) (data : Buffer) :
    (cacheSegment cfg st videoId segmentNumber data).2.videoAccess
      = st.videoAccess := by
  have h : (cacheSegment cfg st videoId segmentNumber data).2.videoAccess
      = (if (cfg.maxCacheSize : Int) < st.size + (data.length : Int) then
          cleanupCache st data.length else st).videoAccess := rfl
  rw [h]
  split
  · exact cleanupCache_videoAccess st data.length
  · rfl

/-- Admission from file never touches the per-video access counters. -/
theorem cacheSegmentFromFile_videoAccess (cfg : Config) (st : CacheState)
    (videoId segmentNumber : Nat) (file : List Nat) (start endByte : Nat) :
    (cacheSegmentFromFile cfg st videoId segmentNumber file start endByte).2.1.videoAccess
      = st.videoAccess := by
  unfold cacheSegmentFromFile
  by_cases h1 : containsKey st.entries ⟨videoId, segmentNumber⟩ = true
  · rw [if_pos h1]
  · rw [if_neg h1]
    by_cases h2 : (cfg.enableStats &&
        (st.videoAccess videoId == 0 ||
          decide (st.videoAccess videoId < cfg.popularityThreshold))) = true
    · rw [if_pos h2]
    · rw [if_neg h2]
      by_cases h3 : (decide (cfg.maxSegmentsPerVideo
          ≤ countCachedSegmentsForVideo st.entries videoId)) = true
      · rw [if_pos h3]
      · rw [if_neg h3]
        exact cacheSegment_videoAccess cfg st videoId segmentNumber _

/-- No operation ever decrements a per-video access counter. -/
theorem applyOp_access_mono (cfg : Config) (st : CacheState) (op : CacheOp)
    (v : Nat) :
    st.videoAccess v ≤ (applyOp cfg st op).videoAccess v := by
  cases op with
  | get w s =>
      have hred : applyOp cfg st (CacheOp.get w s) = (getCachedSegment cfg st w s).2 := rfl
      rw [hred]
      cases hlook : lookupEntry st.entries ⟨w, s⟩ with
      | some d =>
          have hstate : (getCachedSegment cfg st w s).2
              = if cfg.enableStats = true
                then ⟨st.entries, st.hits + 1, st.misses, st.size,
                  incrementVideoAccess st.videoAccess w⟩
                else st := by
            unfold getCachedSegment
            rw [hlook]
          rw [hstate]
          split
          · show st.videoAccess v ≤ incrementVideoAccess st.videoAccess w v
            unfold incrementVideoAccess
            by_cases hv : v = w
            · subst hv; simp
            · simp [hv]
          · exact Nat.le_refl _
      | none =>
          have hstate : (getCachedSegment cfg st w s).2
              = if cfg.enableStats = true
                then ⟨st.entries, st.hits, st.misses + 1, st.size, st.videoAccess⟩
                else st := by
            unfold getCachedSegment
            rw [hlook]
          rw [hstate]
          split
          · exact Nat.le_refl _
          · exact Nat.le_refl _
  | seg w s data =>
      have hred : applyOp cfg st (CacheOp.seg w s data)
          = (cacheSegment cfg st w s data).2 := rfl
      rw [hred, cacheSegment_videoAccess]
  | segFromFile w s file a b =>
      have hred : applyOp cfg st (CacheOp.segFromFile w s file a b)
          = (cacheSegmentFromFile cfg st w s file a b).2.1 := rfl
      rw [hred, cacheSegmentFromFile_videoAccess]
  | resetStats => exact Nat.le_refl _
  | clear => exact Nat.le_refl _

/-- With statistics enabled, a get or admission applied to the empty
zero-counter state leaves it empty with zero counters. -/
theorem applyOp_empty_closed (cfg : Config) (st : CacheState) (op : CacheOp)
    (hstats : cfg.enableStats = true)
    (hop : isGetOrFromFile op = true)
    (hempty : st.entries = [])
    (hzero : ∀ v, st.videoAccess v = 0) :
    (applyOp cfg st op).entries = [] ∧
    ∀ v, (applyOp cfg st op).videoAccess v = 0 := by
  cases op with
  | get w s =>
      have hred : applyOp cfg st (CacheOp.get w s) = (getCachedSegment cfg st w s).2 := rfl
      have hlook : lookupEntry st.entries ⟨w, s⟩ = none := by
        rw [hempty]; rfl
      have hstate : (getCachedSegment cfg st w s).2
          = if cfg.enableStats = true
            then ⟨st.entries, st.hits, st.misses + 1, st.size, st.videoAccess⟩
            else st := by
        unfold getCachedSegment
        rw [hlook]
      rw [hred, hstate, if_pos hstats]
      exact ⟨hempty, hzero⟩
  | seg w s data => simp [isGetOrFromFile] at hop
  | segFromFile w s file a b =>
      have hred : applyOp cfg st (CacheOp.segFromFile w s file a b)
          = (cacheSegmentFromFile cfg st w s file a b).2.1 := rfl
      rw [hred]
      unfold cacheSegmentFromFile
      have hc : containsKey st.entries ⟨w, s⟩ = false := by
        rw [hempty]; rfl
      rw [hc]
      have hgate : (cfg.enableStats &&
          (st.videoAccess w == 0 ||
            decide (st.videoAccess w < cfg.popularityThreshold))) = true := by
        rw [hstats, hzero w]
        rfl
      rw [if_neg (by simp), if_pos hgate]
      exact ⟨hempty, hzero⟩
  | resetStats => simp [isGetOrFromFile] at hop
  | clear => simp [isGetOrFromFile] at hop

/-- Sequences of gets and admissions cannot escape the empty
zero-counter state while statistics are enabled. -/
theorem runOps_empty_closed (cfg : Config) (ops : List CacheOp)
    (hstats : cfg.enableStats = true) :
    ∀ st : CacheState, (∀ op ∈ ops, isGetOrFromFile op = true) →
      st.entries = [] → (∀ v, st.videoAccess v = 0) →
      (runOps cfg ops st).entries = [] ∧
      ∀ v, (runOps cfg ops st).videoAccess v = 0 := by
  induction ops with
  | nil => intro st _ h1 h2; exact ⟨h1, h2⟩
  | cons op rest ih =>
      intro st hops h1 h2
      obtain ⟨h1', h2'⟩ := applyOp_empty_closed cfg st op hstats
        (hops op (List.mem_cons_self op rest)) h1 h2
      exact ih (applyOp cfg st op)
        (fun op' hop' => hops op' (List.mem_cons_of_mem _ hop')) h1' h2'

end VodCache

namespace VodCache

/-- After a store-and-grow step its own key is resident. -/
theorem cacheSegment_contains (cfg : Config) (st : CacheState)
    (videoId segmentNumber : Nat) (data : Buffer) :
    containsKey (cacheSegment cfg st videoId segmentNumber data).2.entries
      ⟨videoId, segmentNumber⟩ = true := by
  have hent : (cacheSegment cfg st videoId segmentNumber data).2.entries
      = setEntry (if (cfg.maxCacheSize : Int) < st.size + (data.length : Int) then
          cleanupCache st data.length else st).entries
        ⟨videoId, segmentNumber⟩ data := rfl
  unfold containsKey
  rw [hent, lookupEntry_setEntry_self]
  rfl

/-- C1: the claim is false on the code.  Under the scenario
configuration (threshold 0, statistics on, cap 2) the three sequential
admissions of segments 0, 1, 2 of the never-accessed video 42 are all
refused by the popularity gate — the gate first tests the raw truthiness
of the access counter, so a count of 0 fails it even with threshold 0 —
leaving the cache empty, with even segment 0 absent afterwards. -/
theorem claim1_cex :
    scenarioRun1.1 = false ∧ scenarioRun2.1 = false ∧ scenarioRun3.1 = false ∧
    scenarioRun3.2.1.entries = [] ∧
    (getCachedSegment scenarioConfig scenarioRun3.2.1 42 0).1 = none ∧
    (getCachedSegment scenarioConfig scenarioRun3.2.1 42 2).1 = none := by
  exact ⟨rfl, rfl, rfl, rfl, rfl, rfl⟩

/-- C1 (amended): with statistics enabled, cacheSegmentFromFile refuses
admission for every video whose access count is 0, regardless of the
configured popularityThreshold — so threshold 0 disables the numeric
comparison but not the gate itself, and a fresh video is still refused
with no state change and no file read. -/
theorem claim1_zero_count_always_refused (cfg : Config) (st : CacheState)
    (videoId segmentNumber : Nat) (file : List Nat) (start endByte : Nat)
    (hstats : cfg.enableStats = true)
    (hzero : st.videoAccess videoId = 0)
    (habs : containsKey st.entries ⟨videoId, segmentNumber⟩ = false) :
    cacheSegmentFromFile cfg st videoId segmentNumber file start endByte
      = (false, st, 0) := by
  unfold cacheSegmentFromFile
  have h1 : ¬ containsKey st.entries ⟨videoId, segmentNumber⟩ = true := by
    rw [habs]
    simp
  rw [if_neg h1]
  have h2 : (cfg.enableStats &&
      (st.videoAccess videoId == 0 ||
        decide (st.videoAccess videoId < cfg.popularityThreshold))) = true := by
    rw [hstats, hzero]
    rfl
  rw [if_pos h2]

/-- C1 witness: the amended theorem applied to the scenario's first
admission. -/
theorem claim1_witness :
    scenarioConfig.enableStats = true ∧
    initialState.videoAccess 42 = 0 ∧
    cacheSegmentFromFile scenarioConfig initialState 42 0 demoFile 0 1
      = (false, initialState, 0) :=
  ⟨rfl, rfl,
    claim1_zero_count_always_refused scenarioConfig initialState 42 0 demoFile 0 1
      rfl rfl rfl⟩

end VodCache


namespace VodCache

/-- Insertion into the empty list. -/
theorem insertEv_nil (x : EvEntry) : insertEv x [] = [x] := rfl

/-- Insertion walks past a strictly less popular head. -/
theorem insertEv_cons_lt {x y : EvEntry} (ys : List EvEntry)
    (h : y.accessCount < x.accessCount) :
    insertEv x (y :: ys) = y :: insertEv x ys := by
  unfold insertEv
  rw [if_pos h]
  cases ys <;> rfl

/-- Insertion stops before a head at least as popular. -/
theorem insertEv_cons_ge {x y : EvEntry} (ys : List EvEntry)
    (h : ¬ y.accessCount < x.accessCount) :
    insertEv x (y :: ys) = x :: y :: ys := by
  unfold insertEv
  rw [if_neg h]

/-- Sorting a two-element scan. -/
theorem evSort_pair (a b : EvEntry) :
    evSort [a, b]
      = if b.accessCount < a.accessCount then [b, a] else [a, b] := by
  show insertEv a (insertEv b []) = _
  rw [insertEv_nil]
  by_cases h : b.accessCount < a.accessCount
  · rw [insertEv_cons_lt _ h, insertEv_nil, if_pos h]
  · rw [insertEv_cons_ge _ h, if_neg h]

/-- The plan over the empty order. -/
theorem evictPlan_nil (r freed : Nat) : evictPlan r [] freed = [] := rfl

/-- The plan stops once enough is freed. -/
theorem evictPlan_cons_stop {r freed : Nat} (e : EvEntry) (rest : List EvEntry)
    (h : r ≤ freed) : evictPlan r (e :: rest) freed = [] := by
  unfold evictPlan
  rw [if_pos h]

/-- The plan takes the head while short of the target. -/
theorem evictPlan_cons_go {r freed : Nat} (e : EvEntry) (rest : List EvEntry)
    (h : ¬ r ≤ freed) :
    evictPlan r (e :: rest) freed = e :: evictPlan r rest (freed + e.size) := by
  unfold evictPlan
  rw [if_neg h]
  cases rest <;> rfl

/-- C2: cleanupCache enumerates the live entries, ranks them ascending
by the owning video's access count (a stable sort of the scan order, so
ties are broken deterministically by insertion order), and removes
exactly the walked plan — stopping once the freed bytes meet the
requested amount, or else exhausting the store; in particular, of two
equal-size entries the one whose video has the lower access count is
evicted and the popular video's entry survives, whichever was inserted
first. -/
theorem claim2_eviction_least_popular :
    (∀ st : CacheState,
        (evictionOrder st).Pairwise (fun a b => a.accessCount ≤ b.accessCount)
        ∧ (evictionOrder st).Perm (buildEvictionEntries st))
  ∧ (∀ (st : CacheState) (r : Nat), DistinctKeys st.entries →
        (cleanupCache st r).entries = removeKeys (planKeys st r) st.entries
        ∧ (r ≤ planBytes st r ∨ ∀ e ∈ st.entries, e.1 ∈ planKeys st r))
  ∧ (∀ (st : CacheState) (kA kB : CacheKey) (dA dB : Buffer),
        kA ≠ kB →
        (st.entries = [(kA, dA), (kB, dB)] ∨ st.entries = [(kB, dB), (kA, dA)]) →
        dB.length = dA.length → 0 < dA.length →
        st.videoAccess kB.videoId < st.videoAccess kA.videoId →
        (cleanupCache st dA.length).entries = [(kA, dA)]) := by
  refine ⟨?_, ?_, ?_⟩
  · intro st
    exact ⟨evSort_sorted (buildEvictionEntries st),
      evSort_perm (buildEvictionEntries st)⟩
  · intro st r hd
    refine ⟨(cleanupCache_spec st r hd).1, ?_⟩
    rcases evictPlan_ge_or_all r (evictionOrder st) 0 with hge | hall
    · left
      have hpb : planBytes st r
          = evSizes (evictPlan r (evictionOrder st) 0) := rfl
      omega
    · right
      exact mem_planKeys_of_all st r hall
  · intro st kA kB dA dB hkAB horder hlen hpos hlt
    have hd : DistinctKeys st.entries := by
      rcases horder with hord | hord
      · rw [hord]
        refine List.pairwise_cons.mpr ⟨?_, List.pairwise_singleton _ _⟩
        intro b hb
        rw [show b = (kB, dB) from by simpa using hb]
        exact hkAB
      · rw [hord]
        refine List.pairwise_cons.mpr ⟨?_, List.pairwise_singleton _ _⟩
        intro b hb
        rw [show b = (kA, dA) from by simpa using hb]
        exact hkAB.symm
    have hent := (cleanupCache_spec st dA.length hd).1
    have horder' : evictionOrder st
        = [⟨kB, dB.length, st.videoAccess kB.videoId⟩,
           ⟨kA, dA.length, st.videoAccess kA.videoId⟩] := by
      rcases horder with hord | hord
      · have hbuild : buildEvictionEntries st
            = [⟨kA, dA.length, st.videoAccess kA.videoId⟩,
               ⟨kB, dB.length, st.videoAccess kB.videoId⟩] := by
          unfold buildEvictionEntries
          rw [hord]
          rfl
        unfold evictionOrder
        rw [hbuild, evSort_pair]
        dsimp only
        rw [if_pos hlt]
      · have hbuild : buildEvictionEntries st
            = [⟨kB, dB.length, st.videoAccess kB.videoId⟩,
               ⟨kA, dA.length, st.videoAccess kA.videoId⟩] := by
          unfold buildEvictionEntries
          rw [hord]
          rfl
        unfold evictionOrder
        rw [hbuild, evSort_pair]
        dsimp only
        rw [if_neg (Nat.lt_asymm hlt)]
    have hplan : evictionPlan st dA.length
        = [⟨kB, dB.length, st.videoAccess kB.videoId⟩] := by
      unfold evictionPlan
      rw [horder']
      rw [evictPlan_cons_go _ _ (by omega)]
      rw [evictPlan_cons_stop _ _ (by show dA.length ≤ 0 + dB.length; omega)]
    have hkeys : planKeys st dA.length = [kB] := by
      unfold planKeys
      rw [hplan]
      rfl
    rw [hent, hkeys]
    rcases horder with hord | hord
    · rw [hord]
      unfold removeKeys
      simp [List.filter_cons, hkAB]
    · rw [hord]
      unfold removeKeys
      simp [List.filter_cons, hkAB]

/-- C2 witness: the instance of the two-entry eviction with access
counts 50 versus 1, the popular entry being the older. -/
theorem claim2_witness :
    (cleanupCache twoEntryState 2).entries = [(⟨1, 0⟩, [9, 9])] :=
  claim2_eviction_least_popular.2.2 twoEntryState ⟨1, 0⟩ ⟨2, 0⟩ [9, 9] [8, 8]
    (by decide) (Or.inl rfl) rfl (by decide) (by decide)

end VodCache

namespace VodCache

/-- C3: the claim is false on the code.  A single cacheSegment admission
of a 5-byte buffer under a 4-byte budget is stored anyway — cleanupCache
finds nothing to evict in the empty cache — and the overshoot remains
observable after the call returns. -/
theorem claim3_cex :
    ¬ entriesSize (runOps overCfg [CacheOp.seg 1 0 [0, 0, 0, 0, 0]]
        initialState).entries ≤ overCfg.maxCacheSize := by
  decide

/-- C3 (amended): the resident byte total stays within maxCacheSize
between calls for every operation sequence from the fresh state in
which each admitted buffer itself fits in the budget; only an admission
strictly larger than the whole budget can leave observable overshoot. -/
theorem claim3_bounded_admissions (cfg : Config) (ops : List CacheOp)
    (h : ∀ op ∈ ops, opDataLength op ≤ cfg.maxCacheSize) :
    entriesSize (runOps cfg ops initialState).entries ≤ cfg.maxCacheSize := by
  have hwf : WellFormed initialState := by
    constructor
    · exact List.Pairwise.nil
    · show ((0 : Nat) : Int) ≤ 0
      simp
  have hb : entriesSize initialState.entries ≤ cfg.maxCacheSize := by
    show 0 ≤ cfg.maxCacheSize
    exact Nat.zero_le _
  exact (runOps_bound cfg ops initialState hwf hb h).2

/-- C3 witness: a three-admission sequence inside a 4-byte budget. -/
theorem claim3_witness :
    entriesSize (runOps overCfg [CacheOp.seg 1 0 [7, 7], CacheOp.seg 1 1 [7, 7],
        CacheOp.seg 2 0 [7, 7, 7]] initialState).entries ≤ overCfg.maxCacheSize :=
  claim3_bounded_admissions overCfg
    [CacheOp.seg 1 0 [7, 7], CacheOp.seg 1 1 [7, 7], CacheOp.seg 2 0 [7, 7, 7]]
    (by decide)

/-- C4: the claim is false on the code.  The public raw cacheSegment
performs no per-video cap check: two direct insertions for video 7
under maxSegmentsPerVideo = 1 leave two resident segments. -/
theorem claim4_cex :
    ¬ countCachedSegmentsForVideo
        (runOps capCfg [CacheOp.seg 7 0 [0], CacheOp.seg 7 1 [0]]
          initialState).entries 7
      ≤ capCfg.maxSegmentsPerVideo := by
  decide

/-- C4 (amended): the per-video cap is enforced only by
cacheSegmentFromFile; along any operation sequence from the fresh state
that avoids raw cacheSegment calls, every video keeps at most
maxSegmentsPerVideo resident segments. -/
theorem claim4_cap_via_fromFile (cfg : Config) (ops : List CacheOp)
    (hops : ∀ op ∈ ops, isRawCacheSegment op = false) (v : Nat) :
    countCachedSegmentsForVideo (runOps cfg ops initialState).entries v
      ≤ cfg.maxSegmentsPerVideo := by
  refine runOps_cap cfg ops initialState hops ?_ v
  intro w
  show 0 ≤ cfg.maxSegmentsPerVideo
  exact Nat.zero_le _

/-- C4 witness: two admissions through cacheSegmentFromFile under a
cap of one. -/
theorem claim4_witness :
    countCachedSegmentsForVideo
      (runOps capCfg [CacheOp.segFromFile 7 0 demoFile 0 1,
        CacheOp.segFromFile 7 1 demoFile 2 3] initialState).entries 7
      ≤ capCfg.maxSegmentsPerVideo :=
  claim4_cap_via_fromFile capCfg
    [CacheOp.segFromFile 7 0 demoFile 0 1, CacheOp.segFromFile 7 1 demoFile 2 3]
    (by decide) 7

/-- C5: the claim is false on the code.  With a full 10-byte cache and a
2-byte admission, eviction is triggered, frees exactly one 2-byte entry,
and the post-call resident total equals the full budget — usage is not
brought down to any target fraction below the boundary. -/
theorem claim5_cex :
    ((headroomConfig.maxCacheSize : Int)
        < headroomState.size + (([0, 0] : Buffer).length : Int)) ∧
    entriesSize (cacheSegment headroomConfig headroomState 6 0 [0, 0]).2.entries
      = headroomConfig.maxCacheSize ∧
    ¬ entriesSize (cacheSegment headroomConfig headroomState 6 0 [0, 0]).2.entries
        < headroomConfig.maxCacheSize := by
  refine ⟨?_, ?_, ?_⟩
  · decide
  · decide
  · decide

/-- C5 (amended): when an admission would exceed maxCacheSize,
cacheSegment invokes cleanupCache with exactly the incoming data length
as the required space; cleanupCache removes exactly its planned
ascending-popularity walk, and that plan is minimal — every proper
initial segment of it frees strictly less than the requested amount —
so no target-fraction headroom below the boundary is ever created. -/
theorem claim5_no_target_headroom :
    (∀ (cfg : Config) (st : CacheState) (videoId segmentNumber : Nat) (data : Buffer),
        (cfg.maxCacheSize : Int) < st.size + (data.length : Int) →
        (cacheSegment cfg st videoId segmentNumber data).2.entries
          = setEntry (cleanupCache st data.length).entries
              ⟨videoId, segmentNumber⟩ data)
  ∧ (∀ (st : CacheState) (r : Nat), DistinctKeys st.entries →
        (cleanupCache st r).entries = removeKeys (planKeys st r) st.entries)
  ∧ (∀ (st : CacheState) (r : Nat) (q t : List EvEntry),
        q ++ t = evictionPlan st r → t ≠ [] → evSizes q < r) := by
  refine ⟨?_, ?_, ?_⟩
  · intro cfg st videoId segmentNumber data h
    have hent : (cacheSegment cfg st videoId segmentNumber data).2.entries
        = setEntry (if (cfg.maxCacheSize : Int) < st.size + (data.length : Int) then
            cleanupCache st data.length else st).entries
          ⟨videoId, segmentNumber⟩ data := rfl
    rw [hent, if_pos h]
  · intro st r hd
    exact (cleanupCache_spec st r hd).1
  · intro st r q t happ ht
    have := evictPlan_proper_initial_lt r (evictionOrder st) 0 q t happ ht
    omega

/-- C5 witness: the full-cache admission of the counterexample, seen
through the amended description. -/
theorem claim5_witness :
    (cacheSegment headroomConfig headroomState 6 0 [0, 0]).2.entries
      = setEntry (cleanupCache headroomState 2).entries ⟨6, 0⟩ [0, 0] :=
  claim5_no_target_headroom.1 headroomConfig headroomState 6 0 [0, 0] (by decide)

end VodCache

namespace VodCache

/-- C6: cacheSegmentFromFile is idempotent in its key — a call whose
exact (videoId, segmentNumber) key is already resident returns true
immediately with no state change and no file read, and two identical
sequential calls perform at most one file read in total, the second
call always reading nothing. -/
theorem claim6_idempotent (cfg : Config) (st : CacheState)
    (videoId segmentNumber : Nat) (file : List Nat) (start endByte : Nat) :
    (containsKey st.entries ⟨videoId, segmentNumber⟩ = true →
        cacheSegmentFromFile cfg st videoId segmentNumber file start endByte
          = (true, st, 0))
  ∧ (cacheSegmentFromFile cfg
        (cacheSegmentFromFile cfg st videoId segmentNumber file start endByte).2.1
        videoId segmentNumber file start endByte).2.2 = 0
  ∧ (cacheSegmentFromFile cfg st videoId segmentNumber file start endByte).2.2
      + (cacheSegmentFromFile cfg
          (cacheSegmentFromFile cfg st videoId segmentNumber file start endByte).2.1
          videoId segmentNumber file start endByte).2.2 ≤ 1 := by
  have hshort : ∀ st' : CacheState,
      containsKey st'.entries ⟨videoId, segmentNumber⟩ = true →
      cacheSegmentFromFile cfg st' videoId segmentNumber file start endByte
        = (true, st', 0) := by
    intro st' h
    unfold cacheSegmentFromFile
    rw [if_pos h]
  by_cases h1 : containsKey st.entries ⟨videoId, segmentNumber⟩ = true
  · have hfirst := hshort st h1
    refine ⟨fun _ => hfirst, ?_, ?_⟩
    · rw [hfirst]
      show (cacheSegmentFromFile cfg st videoId segmentNumber file start endByte).2.2 = 0
      rw [hfirst]
    · rw [hfirst]
      show 0 + (cacheSegmentFromFile cfg st videoId segmentNumber
          file start endByte).2.2 ≤ 1
      rw [hfirst]
      simp
  · by_cases h2 : (cfg.enableStats &&
        (st.videoAccess videoId == 0 ||
          decide (st.videoAccess videoId < cfg.popularityThreshold))) = true
    · have hfirst : cacheSegmentFromFile cfg st videoId segmentNumber file start endByte
          = (false, st, 0) := by
        unfold cacheSegmentFromFile
        rw [if_neg h1, if_pos h2]
      refine ⟨fun hc => absurd hc h1, ?_, ?_⟩
      · rw [hfirst]
        show (cacheSegmentFromFile cfg st videoId segmentNumber file start endByte).2.2 = 0
        rw [hfirst]
      · rw [hfirst]
        show 0 + (cacheSegmentFromFile cfg st videoId segmentNumber
            file start endByte).2.2 ≤ 1
        rw [hfirst]
        simp
    · by_cases h3 : (decide (cfg.maxSegmentsPerVideo
          ≤ countCachedSegmentsForVideo st.entries videoId)) = true
      · have hfirst : cacheSegmentFromFile cfg st videoId segmentNumber file start endByte
            = (false, st, 0) := by
          unfold cacheSegmentFromFile
          rw [if_neg h1, if_neg h2, if_pos h3]
        refine ⟨fun hc => absurd hc h1, ?_, ?_⟩
        · rw [hfirst]
          show (cacheSegmentFromFile cfg st videoId segmentNumber file start endByte).2.2 = 0
          rw [hfirst]
        · rw [hfirst]
          show 0 + (cacheSegmentFromFile cfg st videoId segmentNumber
              file start endByte).2.2 ≤ 1
          rw [hfirst]
          simp
      · have hfirst : cacheSegmentFromFile cfg st videoId segmentNumber file start endByte
            = ((cacheSegment cfg st videoId segmentNumber
                  (readFileSegment file start endByte)).1,
               (cacheSegment cfg st videoId segmentNumber
                  (readFileSegment file start endByte)).2, 1) := by
          unfold cacheSegmentFromFile
          rw [if_neg h1, if_neg h2, if_neg h3]
        have hres : containsKey
            (cacheSegmentFromFile cfg st videoId segmentNumber
              file start endByte).2.1.entries ⟨videoId, segmentNumber⟩ = true := by
          rw [hfirst]
          exact cacheSegment_contains cfg st videoId segmentNumber _
        have hsecond := hshort _ hres
        refine ⟨fun hc => absurd hc h1, ?_, ?_⟩
        · rw [hsecond]
        · rw [hsecond, hfirst]
          simp

/-- C6 witness: the short-circuit on a state already holding the key. -/
theorem claim6_witness :
    cacheSegmentFromFile statsOnConfig demoResident 3 1 demoFile 0 1
      = (true, demoResident, 0) :=
  (claim6_idempotent statsOnConfig demoResident 3 1 demoFile 0 1).1 (by decide)

end VodCache

namespace VodCache

/-- C7: the claim is false on the code.  resetCacheStats zeroes only the
hit and miss counters; a per-video access count of 3 survives the reset
unchanged, where the claim promised all counters including the
per-video ones reach zero. -/
theorem claim7_cex :
    (resetCacheStats countersState).videoAccess 1 = 3 ∧
    ¬ (resetCacheStats countersState).videoAccess 1 = 0 := by
  constructor
  · rfl
  · decide

/-- C7 (amended): resetCacheStats zeroes exactly the hit and miss
counters, leaving the stored entries, the size statistic and the
per-video access counters untouched; and no cache operation ever
decrements a per-video access counter. -/
theorem claim7_reset_scope :
    (∀ st : CacheState,
        (resetCacheStats st).hits = 0 ∧ (resetCacheStats st).misses = 0
        ∧ (resetCacheStats st).entries = st.entries
        ∧ (resetCacheStats st).videoAccess = st.videoAccess
        ∧ (resetCacheStats st).size = st.size)
  ∧ (∀ (cfg : Config) (st : CacheState) (op : CacheOp) (v : Nat),
        st.videoAccess v ≤ (applyOp cfg st op).videoAccess v) := by
  constructor
  · intro st
    exact ⟨rfl, rfl, rfl, rfl, rfl⟩
  · intro cfg st op v
    exact applyOp_access_mono cfg st op v

/-- C8: the claim is false on the code.  With statistics disabled a hit
returns the bytes but does not increment the video's access counter;
and with statistics enabled a miss is not side-effect free — it
increments the global miss counter. -/
theorem claim8_cex :
    ((getCachedSegment statsOffConfig demoResident 3 1).1 = some [5] ∧
      ¬ (getCachedSegment statsOffConfig demoResident 3 1).2.videoAccess 3
          = demoResident.videoAccess 3 + 1) ∧
    ((getCachedSegment statsOnConfig initialState 3 1).1 = none ∧
      ¬ (getCachedSegment statsOnConfig initialState 3 1).2.misses
          = initialState.misses) := by
  refine ⟨⟨?_, ?_⟩, ?_, ?_⟩ <;> decide

/-- C8 (amended): when statistics are enabled, a hit returns the cached
bytes and increments the hit counter and the video's access counter
exactly once, and a miss returns absent changing nothing but the miss
counter; when statistics are disabled, both paths leave the state
untouched. -/
theorem claim8_get_behavior (cfg : Config) (st : CacheState)
    (videoId segmentNumber : Nat) :
    (∀ d : Buffer, lookupEntry st.entries ⟨videoId, segmentNumber⟩ = some d →
        cfg.enableStats = true →
        getCachedSegment cfg st videoId segmentNumber
          = (some d, ⟨st.entries, st.hits + 1, st.misses, st.size,
              incrementVideoAccess st.videoAccess videoId⟩)
        ∧ (getCachedSegment cfg st videoId segmentNumber).2.videoAccess videoId
            = st.videoAccess videoId + 1)
  ∧ (lookupEntry st.entries ⟨videoId, segmentNumber⟩ = none →
        cfg.enableStats = true →
        getCachedSegment cfg st videoId segmentNumber
          = (none, ⟨st.entries, st.hits, st.misses + 1, st.size, st.videoAccess⟩))
  ∧ (cfg.enableStats = false →
        (getCachedSegment cfg st videoId segmentNumber).2 = st) := by
  refine ⟨?_, ?_, ?_⟩
  · intro d hlook hstats
    have hres : getCachedSegment cfg st videoId segmentNumber
        = (some d, if cfg.enableStats = true
            then ⟨st.entries, st.hits + 1, st.misses, st.size,
              incrementVideoAccess st.videoAccess videoId⟩
            else st) := by
      unfold getCachedSegment
      rw [hlook]
    rw [hres, if_pos hstats]
    refine ⟨rfl, ?_⟩
    show incrementVideoAccess st.videoAccess videoId videoId
      = st.videoAccess videoId + 1
    unfold incrementVideoAccess
    simp
  · intro hlook hstats
    have hres : getCachedSegment cfg st videoId segmentNumber
        = (none, if cfg.enableStats = true
            then ⟨st.entries, st.hits, st.misses + 1, st.size, st.videoAccess⟩
            else st) := by
      unfold getCachedSegment
      rw [hlook]
    rw [hres, if_pos hstats]
  · intro hstats
    unfold getCachedSegment
    cases lookupEntry st.entries ⟨videoId, segmentNumber⟩ with
    | some d =>
        show (if cfg.enableStats = true then _ else st) = st
        rw [if_neg (by rw [hstats]; simp)]
    | none =>
        show (if cfg.enableStats = true then _ else st) = st
        rw [if_neg (by rw [hstats]; simp)]

/-- C8 witness: a hit with statistics enabled increments the video's
access counter by exactly one. -/
theorem claim8_witness :
    (getCachedSegment statsOnConfig demoResident 3 1).2.videoAccess 3
      = demoResident.videoAccess 3 + 1 :=
  ((claim8_get_behavior statsOnConfig demoResident 3 1).1 [5] rfl rfl).2

end VodCache

namespace VodCache

/-- C9: the claim is false on the code.  The stream endpoint of
server.js writes a 206 head for every Range request, including one
whose start byte equals the file size, where the claim demanded a
416-equivalent; only the segments endpoint of routes/api.js carries the
range-not-satisfiable check. -/
theorem claim9_cex :
    (VodRoutes.streamRangeResponse 100 100 none).status = 206 ∧
    ¬ (VodRoutes.streamRangeResponse 100 100 none).status = 416 := by
  constructor
  · rfl
  · decide

/-- C9 (amended): the segments endpoint answers 416 — never 206 or a
500 — exactly when the requested segment starts at or past the file
size, and 206 otherwise, while the stream endpoint's range branch
answers 206 unconditionally, with no start-versus-file-size check. -/
theorem claim9_statuses :
    (∀ (fileSize segmentNumber : Nat) (q : VodRoutes.Quality),
        fileSize ≤ segmentNumber * VodRoutes.segmentSize q →
        VodRoutes.segmentsResponseStatus fileSize segmentNumber q = 416)
  ∧ (∀ (fileSize segmentNumber : Nat) (q : VodRoutes.Quality),
        segmentNumber * VodRoutes.segmentSize q < fileSize →
        VodRoutes.segmentsResponseStatus fileSize segmentNumber q = 206)
  ∧ (∀ (fileSize start : Nat) (endPart : Option Nat),
        (VodRoutes.streamRangeResponse fileSize start endPart).status = 206) := by
  refine ⟨?_, ?_, ?_⟩
  · intro fileSize segmentNumber q h
    unfold VodRoutes.segmentsResponseStatus
    rw [if_pos h]
  · intro fileSize segmentNumber q h
    unfold VodRoutes.segmentsResponseStatus
    rw [if_neg (by omega)]
  · intro fileSize start endPart
    rfl

/-- C9 witness: a one-byte file and segment number 1 at low quality. -/
theorem claim9_witness :
    VodRoutes.segmentsResponseStatus 1 1 VodRoutes.Quality.low = 416 :=
  claim9_statuses.1 1 1 VodRoutes.Quality.low (by decide)

/-- C10: with statistics enabled and any positive popularity threshold,
the fresh state — empty store, all access counters zero — is closed
under getCachedSegment and cacheSegmentFromFile: gets always miss,
admissions are always refused by the popularity gate, so no sequence of
those two operations ever creates an entry or moves a counter off
zero. -/
theorem claim10_empty_closed (cfg : Config) (ops : List CacheOp)
    (hstats : cfg.enableStats = true)
    (_hthr : 1 ≤ cfg.popularityThreshold)
    (hops : ∀ op ∈ ops, isGetOrFromFile op = true) :
    (runOps cfg ops initialState).entries = [] ∧
    ∀ v, (runOps cfg ops initialState).videoAccess v = 0 :=
  runOps_empty_closed cfg ops hstats initialState hops rfl (fun _ => rfl)

/-- C10 witness: a get and an admission attempt for video 1 leave the
fresh state empty with video 42's counter still zero. -/
theorem claim10_witness :
    (runOps statsOnConfig [CacheOp.get 1 0, CacheOp.segFromFile 1 0 demoFile 0 1]
        initialState).entries = [] ∧
    (runOps statsOnConfig [CacheOp.get 1 0, CacheOp.segFromFile 1 0 demoFile 0 1]
        initialState).videoAccess 42 = 0 := by
  have h := claim10_empty_closed statsOnConfig
    [CacheOp.get 1 0, CacheOp.segFromFile 1 0 demoFile 0 1] rfl (by decide) (by decide)
  exact ⟨h.1, h.2 42⟩

end VodCache
